import Mathlib

set_option maxHeartbeats 1000000

/-! Verification development for the `git-force-prefix` sources
(`src/commit.rs`, `src/search.rs`, `src/main.rs`).

Modelling conventions:
* Rust byte strings are modelled as `List Char` (the program only ever
  compares ASCII bytes, and byte indices coincide with character indices on
  the inputs all statements quantify over).
* SHA-1 digests are `List Nat`; the streaming SHA-1 state is modelled as the
  list of bytes fed to it so far, and the actual compression function is an
  opaque parameter `H : List Char → List Nat` applied when a digest is taken.
* A Rust panic (slice out of range, index out of bounds, arithmetic
  underflow in debug builds) is modelled by an explicit `crash` constructor
  of the relevant result type. -/

/-- Hexadecimal value of one character; mirrors the three match arms
(`b'A'...b'F'`, `b'a'...b'f'`, `b'0'...b'9'`) used in `Search::parse`
(src/search.rs). -/
def hexVal (c : Char) : Option Nat :=
  if 'A' ≤ c ∧ c ≤ 'F' then some (c.toNat - 'A'.toNat + 10)
  else if 'a' ≤ c ∧ c ≤ 'f' then some (c.toNat - 'a'.toNat + 10)
  else if '0' ≤ c ∧ c ≤ '9' then some (c.toNat - '0'.toNat)
  else none

/-- Decimal value of one character, as used by Rust's integer `from_str`. -/
def digitVal (c : Char) : Option Nat :=
  if '0' ≤ c ∧ c ≤ '9' then some (c.toNat - '0'.toNat) else none

/-- Fuelled digit-producing loop of decimal rendering (most significant digit
first); `fuel ≥ n` is always enough since `n` is divided by ten each step. -/
def natDecAux : Nat → Nat → List Char
  | 0, _ => []
  | f + 1, n => if n = 0 then [] else natDecAux f (n / 10) ++ [Nat.digitChar (n % 10)]

/-- Canonical decimal rendering of a natural number, as Rust's `to_string`
produces it (`"0"` for zero, no leading zeros otherwise). -/
def natDec (n : Nat) : List Char :=
  if n = 0 then ['0'] else natDecAux n n

/-- Canonical decimal rendering of an `i64` value, as Rust's `to_string`
produces it (a `-` sign followed by the digits of the absolute value). -/
def decStr (n : Int) : List Char :=
  if n < 0 then '-' :: natDec n.natAbs else natDec n.toNat

/-- Accumulating decimal-digit loop of Rust's integer `from_str`: fails on the
first non-digit character. -/
def parseNatLoop : List Char → Nat → Option Nat
  | [], acc => some acc
  | c :: t, acc =>
    match digitVal c with
    | none => none
    | some d => parseNatLoop t (acc * 10 + d)

/-- Decimal parse of a digit string: at least one character, digits only. -/
def parseNatDigits (s : List Char) : Option Nat :=
  match s with
  | [] => none
  | _ :: _ => parseNatLoop s 0

/-- Rust's `i64::from_str`: optional sign, at least one decimal digit, value
within `[-2^63, 2^63 - 1]` (out-of-range input is an error, exactly as the
overflow check of `from_str` makes it). -/
def parseI64 (s : List Char) : Option Int :=
  match s with
  | [] => none
  | c :: rest =>
    if c = '-' then
      match parseNatDigits rest with
      | none => none
      | some n => if n ≤ 2 ^ 63 then some (-(n : Int)) else none
    else if c = '+' then
      match parseNatDigits rest with
      | none => none
      | some n => if n ≤ 2 ^ 63 - 1 then some ((n : Int)) else none
    else
      match parseNatDigits (c :: rest) with
      | none => none
      | some n => if n ≤ 2 ^ 63 - 1 then some ((n : Int)) else none

/-- Wrapping `usize` subtraction of one, as computed by `s.len() - 1` in
`Search::parse` (src/search.rs line 32): on `0` it wraps around to
`2^64 - 1` (release-mode semantics; in debug builds the same expression
aborts, so either way the empty string never reaches a `Result`). -/
def usizeSub1 (n : Nat) : Nat := (n + (2 ^ 64 - 1)) % 2 ^ 64

/-- The compiled search pattern of src/search.rs: full bytes plus the optional
trailing nibble. -/
structure Search where
  compare_len : Nat
  bytes : List Nat
  odd : Option Nat
deriving DecidableEq

/-- Outcome of the pair-consuming loop of `Search::parse`. -/
inductive HRes where
  | done : List Nat → HRes
  | err : Char → Nat → HRes
  | crash : HRes
deriving DecidableEq

/-- The `while i < s.len() - 1` loop of `Search::parse` (src/search.rs lines
32–59).  `rem` is `s[i..]` and `bound` the (wrapping) `s.len() - 1`; an index
beyond the end of the string is an out-of-bounds panic (`crash`). -/
def parseHexLoop : List Char → Nat → Nat → List Nat → HRes
  | rem, i, bound, acc =>
    if i < bound then
      match rem with
      | [] => .crash
      | [c1] =>
        match hexVal c1 with
        | none => .err c1 i
        | some _ => .crash
      | c1 :: c2 :: rest =>
        match hexVal c1 with
        | none => .err c1 i
        | some b1 =>
          match hexVal c2 with
          | none => .err c2 (i + 1)
          | some b2 => parseHexLoop rest (i + 2) bound (acc ++ [b1 <<< 4 ||| b2])
    else .done acc

/-- Result of `Search::parse`: a pattern, a `SearchError { ch, pos }`, or a
panic. -/
inductive SearchRes where
  | ok : Search → SearchRes
  | err : Char → Nat → SearchRes
  | crash : SearchRes
deriving DecidableEq

/-- `Search::parse` (src/search.rs lines 28–87): consume hex-digit pairs while
`i < s.len() - 1`, then handle a trailing odd character according to
`s.len() % 2`. -/
def Search.parse (s : List Char) : SearchRes :=
  match parseHexLoop s 0 (usizeSub1 s.length) [] with
  | .crash => .crash
  | .err c p => .err c p
  | .done vec =>
    match s.length % 2 with
    | 0 => .ok ⟨vec.length, vec, none⟩
    | _ =>
      match s[s.length - 1]? with
      | none => .crash
      | some b =>
        match hexVal b with
        | none => .err b (s.length - 1)
        | some v => .ok ⟨vec.length, vec, some v⟩

/-- Result of a computation that can only end in a value or a panic. -/
inductive PRes (α : Type) where
  | ok : α → PRes α
  | crash : PRes α
deriving DecidableEq

/-- `Search::test` (src/search.rs lines 91–104): compare the leading
`compare_len` bytes, then, if present, the high nibble of the next byte.
Slicing `val[0..compare_len]` or indexing `val[compare_len]` out of range is a
panic. -/
def Search.test (sr : Search) (val : List Nat) : PRes Bool :=
  if sr.compare_len ≤ val.length then
    if val.take sr.compare_len = sr.bytes then
      match sr.odd with
      | some b =>
        match val[sr.compare_len]? with
        | some v => .ok (decide (v >>> 4 = b))
        | none => .crash
      | none => .ok true
    else .ok false
  else .crash

/-- First index at which `pat` occurs in `s` (as Rust's `str::find` with a
literal pattern returns it), `none` if it never occurs. -/
def findSub (s pat : List Char) : Option Nat :=
  if pat <+: s then some 0
  else
    match s with
    | [] => none
    | _ :: t => (findSub t pat).map (· + 1)

/-- Last index at which character `c` occurs in `s` (the split point used by
`rsplitn`), `none` if it does not occur. -/
def lastIdxOf (s : List Char) (c : Char) : Option Nat :=
  match s with
  | [] => none
  | a :: t =>
    match lastIdxOf t c with
    | some k => some (k + 1)
    | none => if a = c then some 0 else none

/-- Rust's `rsplitn(3, c)` realised as the list of pieces in yield order
(rightmost piece first; the final piece keeps any further occurrences of
`c`). -/
def rsplit3 (s : List Char) (c : Char) : List (List Char) :=
  match lastIdxOf s c with
  | none => [s]
  | some p =>
    let t := s.drop (p + 1)
    let u := s.take p
    match lastIdxOf u c with
    | none => [t, u]
    | some q => [t, u.drop (q + 1), u.take q]

/-- The parsed commit of src/commit.rs: the fields needed to re-render the
object text byte for byte. -/
structure Commit where
  preamble : List Char
  author : List Char
  author_timestamp : Int
  author_timezone : List Char
  committer : List Char
  committer_timestamp : Int
  committer_timezone : List Char
  message : List Char
deriving DecidableEq

/-- Result of `Commit::parse`: a commit, a `CommitError`, or a panic. -/
inductive CRes where
  | ok : Commit → CRes
  | err : CRes
  | crash : CRes
deriving DecidableEq

/-- Result of the shared `rsplitn(3, ' ')`-and-strip step used for the author
and the committer line. -/
inductive PersonRes where
  | ok : List Char → Int → List Char → PersonRes
  | err : PersonRes
  | crash : PersonRes
deriving DecidableEq

/-- One author/committer line split from the right into timezone, timestamp
and name, with the literal field-name tag of `stripLen` bytes removed by an
unchecked slice `&value[stripLen..]` (src/commit.rs lines 45–50 and 56–61);
the slice panics when the remaining token is shorter than the tag. -/
def parsePerson (line : List Char) (stripLen : Nat) : PersonRes :=
  let parts := rsplit3 line ' '
  match parts[0]? with
  | none => .err
  | some tz =>
    match parts[1]? with
    | none => .err
    | some ts =>
      match parseI64 ts with
      | none => .err
      | some t =>
        match parts[2]? with
        | none => .err
        | some rest =>
          if stripLen ≤ rest.length then .ok (rest.drop stripLen) t tz
          else .crash

/-- The literal word `"author"` searched for in the header. -/
def authorWord : List Char := ['a', 'u', 't', 'h', 'o', 'r']

/-- The literal `"author "` field tag (7 bytes). -/
def authorTag : List Char := ['a', 'u', 't', 'h', 'o', 'r', ' ']

/-- The literal `"committer "` field tag (10 bytes). -/
def committerTag : List Char := ['c', 'o', 'm', 'm', 'i', 't', 't', 'e', 'r', ' ']

/-- The literal `"commit "` object-type framing tag. -/
def commitTag : List Char := ['c', 'o', 'm', 'm', 'i', 't', ' ']

/-- `Commit::parse` (src/commit.rs lines 28–75): split at the first blank
line, locate the `author` line inside the header, split the header at the
first newline after it (so the committer line keeps its leading newline), and
take both person lines apart from the right. -/
def Commit.parse (s : List Char) : CRes :=
  match findSub s ['\n', '\n'] with
  | none => .err
  | some k =>
    let header := s.take k
    let message := s.drop (k + 2)
    match findSub header authorWord with
    | none => .err
    | some ai =>
      let preamble := header.take ai
      let rest := header.drop ai
      match findSub rest ['\n'] with
      | none => .err
      | some li =>
        let author_line := rest.take li
        let committer_line := rest.drop li
        match parsePerson author_line 7 with
        | .crash => .crash
        | .err => .err
        | .ok author t1 tz1 =>
          match parsePerson committer_line 11 with
          | .crash => .crash
          | .err => .err
          | .ok committer t2 tz2 =>
            .ok ⟨preamble, author, t1, tz1, committer, t2, tz2, message⟩

/-- The §3 concatenation: the commit object text determined by the parsed
fields (this is also exactly what the three buffers of `force_prefix`
reassemble around the two timestamps). -/
def renderCommit (c : Commit) : List Char :=
  c.preamble ++ authorTag ++ c.author ++ [' '] ++ decStr c.author_timestamp
    ++ [' '] ++ c.author_timezone ++ ['\n']
    ++ committerTag ++ c.committer ++ [' '] ++ decStr c.committer_timestamp
    ++ [' '] ++ c.committer_timezone ++ ['\n', '\n'] ++ c.message

/-- Decides that a character list contains no two adjacent newlines (no blank
line). -/
def noNN : List Char → Bool
  | [] => true
  | [_] => true
  | c1 :: c2 :: t => if c1 = '\n' ∧ c2 = '\n' then false else noNN (c2 :: t)

/-- Grammar of §3 of the specification, modelled from the spec's words: a
commit text is well-formed when it is the §3 concatenation of a
newline-terminated opaque preamble, single-line author/committer values,
single-token timezones, canonical decimal `i64` timestamps and an arbitrary
message. -/
def WFCommitText (t : List Char) : Prop :=
  ∃ (pre auth atz comm ctz msg : List Char) (ta tc : Int),
    t = renderCommit ⟨pre, auth, ta, atz, comm, tc, ctz, msg⟩
    ∧ '\n' ∉ auth ∧ '\n' ∉ comm
    ∧ '\n' ∉ atz ∧ ' ' ∉ atz ∧ '\n' ∉ ctz ∧ ' ' ∉ ctz
    ∧ (pre = [] ∨ pre.getLast? = some '\n')
    ∧ -(2 ^ 63) ≤ ta ∧ ta < 2 ^ 63 ∧ -(2 ^ 63) ≤ tc ∧ tc < 2 ^ 63

/-- Buffer `A` of `force_prefix` (src/main.rs line 79): everything up to and
including `"author {author} "`. -/
def bufA (c : Commit) : List Char :=
  c.preamble ++ authorTag ++ c.author ++ [' ']

/-- Buffer `B` of `force_prefix` (src/main.rs line 81): everything between the
two timestamps. -/
def bufB (c : Commit) : List Char :=
  [' '] ++ c.author_timezone ++ ['\n'] ++ committerTag ++ c.committer ++ [' ']

/-- Buffer `C` of `force_prefix` (src/main.rs line 86): everything after the
committer timestamp. -/
def bufC (c : Commit) : List Char :=
  [' '] ++ c.committer_timezone ++ ['\n', '\n'] ++ c.message

/-- The length assumed by `force_prefix` (src/main.rs line 95): both
timestamps are taken to render as exactly ten decimal digits. -/
def assumedLen (c : Commit) : Nat :=
  (bufA c).length + 10 + (bufB c).length + 10 + (bufC c).length

/-- The reusable prefix state of `force_prefix` (src/main.rs lines 97–101):
the framing header `"commit {len}\0"` followed by buffer `A`, fed to the
hasher once. -/
def prefixStream (c : Commit) : List Char :=
  commitTag ++ natDec (assumedLen c) ++ ['\x00'] ++ bufA c

/-- `calculate_hash_predigest` (src/main.rs lines 190–210): resume the cloned
state `m`, append the decimal author timestamp, buffer `B`, the decimal
committer timestamp and buffer `C`, and take the digest.  `H` is the opaque
SHA-1 compression applied to the accumulated byte stream. -/
def calculate_hash_predigest (H : List Char → List Nat) (m : List Char)
    (ats : Int) (b : List Char) (cts : Int) (c : List Char) : List Nat :=
  H (m ++ decStr ats ++ b ++ decStr cts ++ c)

/-- The byte stream hashed by the probe for offsets `(j, i)`. -/
def probeStream (c : Commit) (j i : Nat) : List Char :=
  prefixStream c ++ decStr (c.author_timestamp + (j : Int)) ++ bufB c
    ++ decStr (c.author_timestamp + (i : Int)) ++ bufC c

/-- The commit returned on success (src/main.rs lines 156–161): the original
with only the two timestamps replaced, both derived from the original author
timestamp. -/
def newCommit (c : Commit) (j i : Nat) : Commit :=
  { c with
    author_timestamp := c.author_timestamp + (j : Int),
    committer_timestamp := c.author_timestamp + (i : Int) }

/-- The byte stream of the re-rendered commit object with its correct framing
header: `"commit {len}\0"` for the actual length, followed by the full object
text. -/
def fullStream (c : Commit) (j i : Nat) : List Char :=
  commitTag ++ natDec (renderCommit (newCommit c j i)).length ++ ['\x00']
    ++ renderCommit (newCommit c j i)

/-- The probe for `(j, i)` reports a match: its digest passes `Search::test`. -/
@[reducible]
def probeMatches (c : Commit) (sr : Search) (H : List Char → List Nat)
    (j i : Nat) : Prop :=
  Search.test sr (calculate_hash_predigest H (prefixStream c)
    (c.author_timestamp + (j : Int)) (bufB c)
    (c.author_timestamp + (i : Int)) (bufC c)) = .ok true

/-- Some probe of diagonal `i` (the fan-out `(0..(i + 1)).into_par_iter()`)
reports a match. -/
@[reducible]
def diagMatches (c : Commit) (sr : Search) (H : List Char → List Nat)
    (i : Nat) : Prop :=
  ∃ j, j < i + 1 ∧ probeMatches c sr H j i

/-- The driver loop of `force_prefix` (src/main.rs lines 104–133) can stop
with the pair `(j, i)`: `j` lies in diagonal `i`, its probe matches, and no
earlier diagonal contains any matching probe (`find_any` returns `Some`
whenever a match exists, and which matching `j` it yields is scheduler
dependent, so the result is a relation rather than a function). -/
@[reducible]
def EngineReturns (c : Commit) (sr : Search) (H : List Char → List Nat)
    (i j : Nat) : Prop :=
  j < i + 1 ∧ probeMatches c sr H j i ∧ ∀ ip, ip < i → ¬ diagMatches c sr H ip

/-! ### Instances used by closed witness and counterexample statements -/

/-- A commit whose §3 text carries a decoy `author` line inside the preamble. -/
def cexCommit : Commit :=
  ⟨"Xauthor P <p> 5 +0000\n".toList, "A <a>".toList, 1, "-0500".toList,
    "C <c>".toList, 2, "-0500".toList, "msg".toList⟩

/-- A small well-behaved commit. -/
def cEng : Commit :=
  ⟨"tree x\n".toList, "A <a>".toList, 1524680608, "-0500".toList,
    "C <c>".toList, 5, "+0000".toList, "m\n".toList⟩

/-- The same commit with a different original committer timestamp. -/
def cEngB : Commit :=
  { cEng with committer_timestamp := 99 }

/-- The one-byte pattern `"00"`. -/
def srOne : Search := ⟨1, [0], none⟩

/-- A hash model under which every probe matches. -/
def constH : List Char → List Nat := fun _ => [0]

/-- A hash model under which exactly the probe `(0, 0)` of `cEng` misses and
every other probe matches. -/
def skewH : List Char → List Nat := fun l =>
  if l = probeStream cEng 0 0 then [255] else [0]

/-- The ways the `rsplitn`-and-parse step of one person line can end in
`CommitError`: a missing timestamp token, a timestamp that is not a valid
`i64`, or a missing name token. -/
def personErrCond (line : List Char) : Prop :=
  (rsplit3 line ' ')[1]? = none
  ∨ (∃ ts, (rsplit3 line ' ')[1]? = some ts ∧ parseI64 ts = none)
  ∨ (∃ ts v, (rsplit3 line ' ')[1]? = some ts ∧ parseI64 ts = some v
      ∧ (rsplit3 line ' ')[2]? = none)

/-! ### Decimal rendering and parsing lemmas -/

lemma natDecAux_eq (fuel n : Nat) (h : n ≤ fuel) :
    natDecAux fuel n = (Nat.digits 10 n).reverse.map Nat.digitChar := by
  induction fuel generalizing n with
  | zero =>
    have hn : n = 0 := by omega
    subst hn
    simp [natDecAux]
  | succ f ih =>
    by_cases hn : n = 0
    · subst hn; simp [natDecAux]
    · have hlt : n / 10 < n := Nat.div_lt_self (Nat.pos_of_ne_zero hn) (by norm_num)
      rw [natDecAux, if_neg hn, ih (n / 10) (by omega),
        Nat.digits_def' (by norm_num : 1 < 10) (Nat.pos_of_ne_zero hn)]
      simp

lemma natDec_eq (n : Nat) (hn : n ≠ 0) :
    natDec n = (Nat.digits 10 n).reverse.map Nat.digitChar := by
  rw [natDec, if_neg hn, natDecAux_eq n n le_rfl]

lemma digitChar_facts : ∀ d, d < 10 →
    digitVal (Nat.digitChar d) = some d ∧ Nat.digitChar d ≠ '\n' ∧
    Nat.digitChar d ≠ ' ' ∧ Nat.digitChar d ≠ '-' ∧ Nat.digitChar d ≠ '+' := by
  decide

lemma mem_natDec {c : Char} {n : Nat} (h : c ∈ natDec n) :
    ∃ d, d < 10 ∧ c = Nat.digitChar d := by
  by_cases hn : n = 0
  · subst hn
    have h0 : natDec 0 = ['0'] := rfl
    rw [h0, List.mem_singleton] at h
    exact ⟨0, by norm_num, by rw [h]; rfl⟩
  · rw [natDec_eq n hn] at h
    simp only [List.mem_map, List.mem_reverse] at h
    obtain ⟨d, hd, rfl⟩ := h
    exact ⟨d, Nat.digits_lt_base (by norm_num) hd, rfl⟩

lemma natDec_nlFree (n : Nat) : '\n' ∉ natDec n := by
  intro h
  obtain ⟨d, hd, hc⟩ := mem_natDec h
  exact (digitChar_facts d hd).2.1 hc.symm

lemma natDec_spFree (n : Nat) : ' ' ∉ natDec n := by
  intro h
  obtain ⟨d, hd, hc⟩ := mem_natDec h
  exact (digitChar_facts d hd).2.2.1 hc.symm

lemma decStr_nlFree (n : Int) : '\n' ∉ decStr n := by
  rw [decStr]
  split
  · intro h
    rcases List.mem_cons.1 h with h | h
    · exact absurd h (by decide)
    · exact natDec_nlFree _ h
  · exact natDec_nlFree _

lemma decStr_spFree (n : Int) : ' ' ∉ decStr n := by
  rw [decStr]
  split
  · intro h
    rcases List.mem_cons.1 h with h | h
    · exact absurd h (by decide)
    · exact natDec_spFree _ h
  · exact natDec_spFree _

lemma parseNatLoop_map (l : List Nat) (acc : Nat) (h : ∀ d ∈ l, d < 10) :
    parseNatLoop (l.map Nat.digitChar) acc =
      some (l.foldl (fun a d => a * 10 + d) acc) := by
  induction l generalizing acc with
  | nil => simp [parseNatLoop]
  | cons d t ih =>
    simp only [List.map_cons, parseNatLoop, (digitChar_facts d (h d (by simp))).1,
      List.foldl_cons]
    exact ih _ (fun x hx => h x (by simp [hx]))

lemma foldl_reverse_ofDigits (l : List Nat) (acc : Nat) :
    l.reverse.foldl (fun a d => a * 10 + d) acc =
      acc * 10 ^ l.length + Nat.ofDigits 10 l := by
  induction l generalizing acc with
  | nil => simp [Nat.ofDigits]
  | cons d t ih =>
    simp only [List.reverse_cons, List.foldl_append, List.foldl_cons, List.foldl_nil, ih]
    have : (Nat.ofDigits 10 (d :: t) : Nat) = d + 10 * Nat.ofDigits 10 t := by
      simp [Nat.ofDigits_cons]
    rw [this]
    simp only [List.length_cons, pow_succ]
    ring

lemma parseNatDigits_natDec (n : Nat) : parseNatDigits (natDec n) = some n := by
  by_cases hn : n = 0
  · subst hn; decide
  · have hd := natDec_eq n hn
    have hne : natDec n ≠ [] := by
      rw [hd]
      simp [Nat.digits_ne_nil_iff_ne_zero.2 hn]
    have hloop : parseNatDigits (natDec n) = parseNatLoop (natDec n) 0 := by
      cases hx : natDec n with
      | nil => exact absurd hx hne
      | cons c t => rfl
    rw [hloop, hd, parseNatLoop_map _ _
      (fun d hd2 => Nat.digits_lt_base (by norm_num) (List.mem_reverse.1 hd2)),
      foldl_reverse_ofDigits]
    simp [Nat.ofDigits_digits]

lemma natDec_ne_nil (n : Nat) : natDec n ≠ [] := by
  by_cases hn : n = 0
  · subst hn; decide
  · rw [natDec_eq n hn]
    simp [Nat.digits_ne_nil_iff_ne_zero.2 hn]

lemma natDec_head_digit (n : Nat) :
    ∃ c t, natDec n = c :: t ∧ ∃ d, d < 10 ∧ c = Nat.digitChar d := by
  cases hx : natDec n with
  | nil => exact absurd hx (natDec_ne_nil n)
  | cons c t =>
    refine ⟨c, t, rfl, ?_⟩
    exact mem_natDec (by rw [hx]; simp)

lemma parseI64_natDec (m : Nat) (hm : m ≤ 2 ^ 63 - 1) :
    parseI64 (natDec m) = some (m : Int) := by
  obtain ⟨c, t, hct, d, hd, rfl⟩ := natDec_head_digit m
  rw [hct, parseI64, if_neg (digitChar_facts d hd).2.2.2.1,
    if_neg (digitChar_facts d hd).2.2.2.2, ← hct, parseNatDigits_natDec m]
  simp only [show (2 : Nat) ^ 63 - 1 = 9223372036854775807 from rfl] at hm
  simp [hm]

lemma parseI64_decStr (n : Int) (h1 : -(2 ^ 63) ≤ n) (h2 : n < 2 ^ 63) :
    parseI64 (decStr n) = some n := by
  rw [decStr]
  by_cases hneg : n < 0
  · rw [if_pos hneg, parseI64, if_pos rfl, parseNatDigits_natDec]
    have hr : n.natAbs ≤ 2 ^ 63 := by omega
    simp only [hr, if_true]
    congr 1
    omega
  · rw [if_neg hneg, parseI64_natDec n.toNat (by omega)]
    congr 1
    omega

/-! ### Substring search lemmas -/

lemma findSub_spec {s pat : List Char} {n : Nat} (h : findSub s pat = some n) :
    pat <+: s.drop n ∧ ∀ j, j < n → ¬ pat <+: s.drop j := by
  induction s generalizing n with
  | nil =>
    rw [findSub] at h
    split at h
    · rename_i hp
      cases h
      exact ⟨by simpa using hp, by omega⟩
    · simp at h
  | cons c t ih =>
    rw [findSub] at h
    split at h
    · rename_i hp
      cases h
      exact ⟨by simpa using hp, by omega⟩
    · rename_i hp
      cases hft : findSub t pat with
      | none => rw [hft] at h; simp at h
      | some m =>
        rw [hft] at h
        simp at h
        subst h
        obtain ⟨h1, h2⟩ := ih hft
        refine ⟨by simpa using h1, ?_⟩
        intro j hj
        cases j with
        | zero => simpa using hp
        | succ j2 =>
          rw [List.drop_succ_cons]
          exact h2 j2 (by omega)

lemma findSub_eq_some {s pat : List Char} {n : Nat}
    (hocc : pat <+: s.drop n) (hmin : ∀ j, j < n → ¬ pat <+: s.drop j) :
    findSub s pat = some n := by
  induction s generalizing n with
  | nil =>
    have h0 : pat <+: ([] : List Char) := by simpa using hocc
    rw [findSub, if_pos h0]
    cases n with
    | zero => rfl
    | succ m => exact absurd (by simpa using h0) (by simpa using hmin 0 (Nat.succ_pos m))
  | cons c t ih =>
    cases n with
    | zero =>
      rw [findSub, if_pos (by simpa using hocc)]
    | succ m =>
      have hnp : ¬ pat <+: (c :: t) := by simpa using hmin 0 (Nat.succ_pos m)
      rw [findSub, if_neg hnp]
      have hrec : findSub t pat = some m := by
        apply ih (by simpa using hocc)
        intro j hj
        have := hmin (j + 1) (by omega)
        simpa using this
      simp [hrec]

lemma isPrefix_of_append {p x y : List Char} (h : p <+: x ++ y)
    (hl : p.length ≤ x.length) : p <+: x := by
  rw [List.prefix_iff_eq_take] at h ⊢
  rw [List.take_append_eq_append_take, Nat.sub_eq_zero_of_le hl, List.take_zero,
    List.append_nil] at h
  exact h

lemma singleton_isPrefix_iff (c : Char) (l : List Char) :
    [c] <+: l ↔ l.head? = some c := by
  cases l with
  | nil => simp
  | cons a t =>
    rw [List.cons_prefix_cons]
    simp [eq_comm]

/-! ### Blank-line (`noNN`) lemmas -/

lemma noNN_cons {c : Char} {l : List Char} (h : noNN (c :: l) = true) :
    noNN l = true := by
  cases l with
  | nil => rfl
  | cons d t =>
    rw [noNN] at h
    split at h
    · exact absurd h (by simp)
    · exact h

lemma noNN_cons_pair {c d : Char} {l : List Char} (h : noNN (c :: d :: l) = true) :
    ¬(c = '\n' ∧ d = '\n') := by
  intro hx
  rw [noNN, if_pos hx] at h
  exact absurd h (by simp)

lemma noNN_of_nlFree {l : List Char} (h : '\n' ∉ l) : noNN l = true := by
  induction l with
  | nil => rfl
  | cons c t ih =>
    cases t with
    | nil => rfl
    | cons d t2 =>
      rw [noNN, if_neg]
      · exact ih (fun hx => h (by simp [hx]))
      · rintro ⟨h1, h2⟩
        exact h (by simp [h1])

lemma noNN_append {a b : List Char} (ha : noNN a = true) (hb : noNN b = true)
    (hab : ¬(a.getLast? = some '\n' ∧ b.head? = some '\n')) :
    noNN (a ++ b) = true := by
  induction a with
  | nil => simpa using hb
  | cons c t ih =>
    cases t with
    | nil =>
      cases b with
      | nil => rfl
      | cons d u =>
        rw [List.singleton_append, noNN, if_neg]
        · exact hb
        · rintro ⟨h1, h2⟩
          exact hab (by simp [h1, h2])
    | cons e t2 =>
      rw [List.cons_append, List.cons_append, noNN, if_neg]
      · have := ih (noNN_cons ha)
        rw [List.cons_append] at this
        apply this
        rw [List.getLast?_cons_cons] at hab
        exact hab
      · exact noNN_cons_pair ha

lemma nn_not_prefix_drop {a : List Char} (r : List Char)
    (h : noNN (a ++ ['\n']) = true) :
    ∀ i, i < a.length → ¬ (['\n', '\n'] <+: (a ++ '\n' :: r).drop i) := by
  induction a with
  | nil => intro i hi; simp at hi
  | cons c t ih =>
    intro i hi
    cases i with
    | zero =>
      rw [List.drop_zero, List.cons_append, List.cons_prefix_cons]
      rintro ⟨h1, h2⟩
      rw [singleton_isPrefix_iff] at h2
      cases t with
      | nil =>
        have := noNN_cons_pair (l := []) (by simpa using h)
        exact this ⟨h1.symm, rfl⟩
      | cons d t2 =>
        rw [List.cons_append, List.head?_cons] at h2
        have := noNN_cons_pair (by simpa using h)
        exact this ⟨h1.symm, by simpa using h2⟩
    | succ m =>
      rw [List.cons_append, List.drop_succ_cons]
      apply ih
      · exact noNN_cons (by simpa using h)
      · simpa using hi

lemma findSub_concat {a pat b : List Char}
    (hmin : ∀ j, j < a.length → ¬ pat <+: (a ++ pat ++ b).drop j) :
    findSub (a ++ pat ++ b) pat = some a.length := by
  apply findSub_eq_some
  · rw [List.append_assoc, List.drop_left]
    exact List.prefix_append pat b
  · exact hmin

lemma findSub_nn {hdr : List Char} (msg : List Char)
    (h : noNN (hdr ++ ['\n']) = true) :
    findSub (hdr ++ '\n' :: '\n' :: msg) ['\n', '\n'] = some hdr.length := by
  apply findSub_eq_some
  · rw [List.drop_left]
    exact ⟨msg, rfl⟩
  · exact nn_not_prefix_drop ('\n' :: msg) h

lemma findSub_author {pre tail2 : List Char}
    (h13 : findSub (pre ++ authorWord) authorWord = some pre.length) :
    findSub (pre ++ authorWord ++ tail2) authorWord = some pre.length := by
  obtain ⟨_, hmin⟩ := findSub_spec h13
  apply findSub_concat
  intro j hj hp
  apply hmin j hj
  have hx : List.drop j (pre ++ authorWord) = List.drop j pre ++ authorWord := by
    rw [List.drop_append_eq_append_drop, Nat.sub_eq_zero_of_le (Nat.le_of_lt hj),
      List.drop_zero]
  have hy : List.drop j (pre ++ authorWord ++ tail2)
      = (List.drop j pre ++ authorWord) ++ tail2 := by
    rw [List.drop_append_eq_append_drop, Nat.sub_eq_zero_of_le
      (le_trans (Nat.le_of_lt hj) (by simp)), List.drop_zero, hx]
  rw [hy] at hp
  rw [hx]
  apply isPrefix_of_append hp
  have hlen : (List.drop j pre).length = pre.length - j := List.length_drop ..
  simp only [List.length_append, hlen]
  simp [authorWord]

lemma findSub_single_nl {a : List Char} (b : List Char) (h : '\n' ∉ a) :
    findSub (a ++ '\n' :: b) ['\n'] = some a.length := by
  apply findSub_eq_some
  · rw [List.drop_left]
    exact ⟨b, rfl⟩
  · intro j hj hp
    rw [singleton_isPrefix_iff, List.drop_append_eq_append_drop,
      Nat.sub_eq_zero_of_le (Nat.le_of_lt hj), List.drop_zero, List.head?_append] at hp
    have hne : a.drop j ≠ [] := by
      intro hx
      have := congrArg List.length hx
      simp at this
      omega
    rw [List.head?_eq_head hne,
      show (some ((List.drop j a).head hne)).or ('\n' :: b).head?
        = some ((List.drop j a).head hne) from rfl, Option.some_inj] at hp
    apply h
    apply List.mem_of_mem_drop (n := j)
    rw [← hp]
    exact List.head_mem hne

/-! ### `rsplitn`-style splitting lemmas -/

lemma lastIdxOf_none {z : List Char} {c : Char} (h : c ∉ z) :
    lastIdxOf z c = none := by
  induction z with
  | nil => rfl
  | cons a t ih =>
    rw [lastIdxOf, ih (fun hx => h (by simp [hx])), if_neg (fun hx => h (by simp [hx]))]

lemma lastIdxOf_cons_self {z : List Char} {c : Char} (h : c ∉ z) :
    lastIdxOf (c :: z) c = some 0 := by
  rw [lastIdxOf, lastIdxOf_none h, if_pos rfl]

lemma lastIdxOf_append {a b : List Char} {c : Char} {k : Nat}
    (h : lastIdxOf b c = some k) :
    lastIdxOf (a ++ b) c = some (a.length + k) := by
  induction a with
  | nil => simpa using h
  | cons x t ih =>
    rw [List.cons_append, lastIdxOf, ih]
    simp only [List.length_cons]
    congr 1
    omega

lemma rsplit3_two {x ts tz : List Char} (h1 : ' ' ∉ ts) (h2 : ' ' ∉ tz) :
    rsplit3 (x ++ [' '] ++ ts ++ [' '] ++ tz) ' ' = [tz, ts, x] := by
  have hshape : x ++ [' '] ++ ts ++ [' '] ++ tz = (x ++ [' '] ++ ts) ++ ' ' :: tz := by
    simp
  rw [hshape, rsplit3, lastIdxOf_append (lastIdxOf_cons_self h2)]
  simp only [Nat.add_zero]
  have hd : ((x ++ [' '] ++ ts) ++ ' ' :: tz).drop ((x ++ [' '] ++ ts).length + 1) = tz := by
    rw [show (x ++ [' '] ++ ts) ++ ' ' :: tz = ((x ++ [' '] ++ ts) ++ [' ']) ++ tz by simp,
      List.drop_left' (by simp; omega)]
  have ht : ((x ++ [' '] ++ ts) ++ ' ' :: tz).take (x ++ [' '] ++ ts).length
      = x ++ [' '] ++ ts := List.take_left ..
  rw [hd, ht, show x ++ [' '] ++ ts = x ++ ' ' :: ts by simp,
    lastIdxOf_append (lastIdxOf_cons_self h1)]
  simp only [Nat.add_zero]
  have hd2 : (x ++ ' ' :: ts).drop (x.length + 1) = ts := by
    rw [show x ++ ' ' :: ts = (x ++ [' ']) ++ ts by simp,
      List.drop_left' (by simp)]
  have ht2 : (x ++ ' ' :: ts).take x.length = x := by
    rw [show x ++ ' ' :: ts = x ++ (' ' :: ts) by simp, List.take_left]
  rw [hd2, ht2]

lemma parsePerson_render {tag name tz : List Char} {t : Int}
    (htz : ' ' ∉ tz) (hr1 : -(2 ^ 63) ≤ t) (hr2 : t < 2 ^ 63) :
    parsePerson (tag ++ name ++ [' '] ++ decStr t ++ [' '] ++ tz) tag.length
      = .ok name t tz := by
  have hshape : tag ++ name ++ [' '] ++ decStr t ++ [' '] ++ tz
      = (tag ++ name) ++ [' '] ++ decStr t ++ [' '] ++ tz := by simp
  rw [parsePerson, hshape, rsplit3_two (decStr_spFree t) htz]
  simp only [List.getElem?_cons_zero, List.getElem?_cons_succ]
  rw [parseI64_decStr t hr1 hr2]
  simp only [Option.some.injEq]
  rw [if_pos (by simp), List.drop_left]

/-! ### Header assembly lemmas for the round trip -/

lemma authorTag_eq : authorTag = authorWord ++ [' '] := rfl

lemma getLast?_ne_nl {l : List Char} (h : '\n' ∉ l) : l.getLast? ≠ some '\n' :=
  fun hx => h (List.mem_of_mem_getLast? hx)

lemma commit_header_noNN {pre AL CL : List Char} (hpre : noNN pre = true)
    (hALnl : '\n' ∉ AL) (hCLnl : '\n' ∉ CL)
    (hALhead : (AL ++ '\n' :: CL).head? ≠ some '\n')
    (hCLhead : (CL ++ ['\n']).head? ≠ some '\n') :
    noNN ((pre ++ (AL ++ '\n' :: CL)) ++ ['\n']) = true := by
  have hshape : (pre ++ (AL ++ '\n' :: CL)) ++ ['\n']
      = pre ++ (AL ++ '\n' :: (CL ++ ['\n'])) := by simp
  rw [hshape]
  apply noNN_append hpre
  · apply noNN_append (noNN_of_nlFree hALnl)
    · have hsh2 : ('\n' :: (CL ++ ['\n'])) = ['\n'] ++ (CL ++ ['\n']) := rfl
      rw [hsh2]
      apply noNN_append (by decide)
      · exact noNN_append (noNN_of_nlFree hCLnl) (by decide)
          (fun hx => absurd hx.1 (getLast?_ne_nl hCLnl))
      · rintro ⟨_, h2⟩
        exact hCLhead h2
    · rintro ⟨h1, _⟩
      exact getLast?_ne_nl hALnl h1
  · rintro ⟨_, h2⟩
    apply hALhead
    rw [List.head?_append, List.head?_cons] at h2
    rw [List.head?_append, List.head?_cons]
    exact h2

/-- C1 (amended): parsing the §3 rendering of well-formed fields recovers
exactly those fields, provided the preamble contains no blank line and no
occurrence of the word `author` (so the located author line is the real one);
re-rendering the parsed fields therefore reproduces the original text. -/
theorem c1_round_trip
    (pre auth atz comm ctz msg : List Char) (ta tc : Int)
    (hA : '\n' ∉ auth) (hC : '\n' ∉ comm)
    (hAtz1 : '\n' ∉ atz) (hAtz2 : ' ' ∉ atz)
    (hCtz1 : '\n' ∉ ctz) (hCtz2 : ' ' ∉ ctz)
    (hta1 : -(2 ^ 63) ≤ ta) (hta2 : ta < 2 ^ 63)
    (htc1 : -(2 ^ 63) ≤ tc) (htc2 : tc < 2 ^ 63)
    (hpre : noNN pre = true)
    (hauth : findSub (pre ++ authorWord) authorWord = some pre.length) :
    Commit.parse (renderCommit ⟨pre, auth, ta, atz, comm, tc, ctz, msg⟩)
      = .ok ⟨pre, auth, ta, atz, comm, tc, ctz, msg⟩ := by
  set AL := authorTag ++ auth ++ [' '] ++ decStr ta ++ [' '] ++ atz with hAL
  set CL := committerTag ++ comm ++ [' '] ++ decStr tc ++ [' '] ++ ctz with hCL
  set hdr := pre ++ (AL ++ '\n' :: CL) with hhdr
  have hALnl : '\n' ∉ AL := by
    rw [hAL]
    simp [authorTag, hA, hAtz1, decStr_nlFree ta]
  have hCLnl : '\n' ∉ CL := by
    rw [hCL]
    simp [committerTag, hC, hCtz1, decStr_nlFree tc]
  have htext : renderCommit ⟨pre, auth, ta, atz, comm, tc, ctz, msg⟩
      = hdr ++ '\n' :: '\n' :: msg := by
    rw [hhdr, hAL, hCL]
    simp [renderCommit]
  have hnn : noNN (hdr ++ ['\n']) = true := by
    rw [hhdr]
    apply commit_header_noNN hpre hALnl hCLnl
    · rw [hAL]
      simp [authorTag]
    · rw [hCL]
      simp [committerTag]
  have h1 : findSub (hdr ++ '\n' :: '\n' :: msg) ['\n', '\n'] = some hdr.length :=
    findSub_nn msg hnn
  have htake : (hdr ++ '\n' :: '\n' :: msg).take hdr.length = hdr := List.take_left ..
  have hdrop : (hdr ++ '\n' :: '\n' :: msg).drop (hdr.length + 2) = msg := by
    rw [show hdr ++ '\n' :: '\n' :: msg = (hdr ++ ['\n', '\n']) ++ msg by simp,
      List.drop_left' (by simp)]
  have h2 : findSub hdr authorWord = some pre.length := by
    rw [hhdr, hAL,
      show pre ++ ((authorTag ++ auth ++ [' '] ++ decStr ta ++ [' '] ++ atz) ++ '\n' :: CL)
        = pre ++ authorWord
          ++ ([' '] ++ auth ++ [' '] ++ decStr ta ++ [' '] ++ atz ++ '\n' :: CL) by
        simp [authorTag, authorWord]]
    exact findSub_author hauth
  have htake2 : hdr.take pre.length = pre := by
    rw [hhdr, List.take_left]
  have hdrop2 : hdr.drop pre.length = AL ++ '\n' :: CL := by
    rw [hhdr, List.drop_left]
  have h3 : findSub (AL ++ '\n' :: CL) ['\n'] = some AL.length :=
    findSub_single_nl CL hALnl
  have htake3 : (AL ++ '\n' :: CL).take AL.length = AL := List.take_left ..
  have hdrop3 : (AL ++ '\n' :: CL).drop AL.length = '\n' :: CL := List.drop_left ..
  have h4 : parsePerson AL 7 = .ok auth ta atz := by
    rw [hAL]
    exact parsePerson_render hAtz2 hta1 hta2
  have h5 : parsePerson ('\n' :: CL) 11 = .ok comm tc ctz := by
    have hsh : '\n' :: CL
        = ('\n' :: committerTag) ++ comm ++ [' '] ++ decStr tc ++ [' '] ++ ctz := by
      rw [hCL]
      simp
    rw [hsh]
    exact parsePerson_render hCtz2 htc1 htc2
  rw [htext, Commit.parse]
  simp only [h1, htake, hdrop, h2, htake2, hdrop2, h3, htake3, hdrop3, h4, h5]

/-- C1 (counterexample): a text that is well-formed for the §3 grammar and on
which `Commit::parse` succeeds, yet re-concatenating the parsed fields does
not reproduce the text — the preamble carries a decoy `author` line, so the
parser misidentifies every field. -/
theorem c1_cex :
    WFCommitText (renderCommit cexCommit)
    ∧ ∃ c, Commit.parse (renderCommit cexCommit) = .ok c
        ∧ renderCommit c ≠ renderCommit cexCommit := by
  constructor
  · exact ⟨"Xauthor P <p> 5 +0000\n".toList, "A <a>".toList, "-0500".toList,
      "C <c>".toList, "-0500".toList, "msg".toList, 1, 2, rfl, by decide, by decide,
      by decide, by decide, by decide, by decide, by decide, by decide, by decide,
      by decide, by decide⟩
  · exact ⟨⟨"X".toList, "P <p>".toList, 5, "+0000".toList,
      "a> 1 -0500\ncommitter C <c>".toList, 2, "-0500".toList, "msg".toList⟩,
      by decide, by decide⟩

/-- Witness for `c1_round_trip` at a concrete commit. -/
theorem c1_round_trip_witness :
    ('\n' ∉ "A <a>".toList) ∧ ('\n' ∉ "B <b>".toList)
    ∧ ('\n' ∉ "-0500".toList) ∧ (' ' ∉ "-0500".toList)
    ∧ (-(2 ^ 63) ≤ (1524752605 : Int)) ∧ ((1524752605 : Int) < 2 ^ 63)
    ∧ (-(2 ^ 63) ≤ (1524753225 : Int)) ∧ ((1524753225 : Int) < 2 ^ 63)
    ∧ (noNN ("tree f\n".toList) = true)
    ∧ (findSub ("tree f\n".toList ++ authorWord) authorWord
        = some (("tree f\n".toList).length))
    ∧ Commit.parse (renderCommit ⟨"tree f\n".toList, "A <a>".toList, 1524752605,
        "-0500".toList, "B <b>".toList, 1524753225, "-0500".toList,
        "Test commit\n".toList⟩)
      = .ok ⟨"tree f\n".toList, "A <a>".toList, 1524752605, "-0500".toList,
        "B <b>".toList, 1524753225, "-0500".toList, "Test commit\n".toList⟩ :=
  ⟨by decide, by decide, by decide, by decide, by decide, by decide, by decide,
   by decide, by decide, by decide,
   c1_round_trip _ _ _ _ _ _ _ _ (by decide) (by decide) (by decide) (by decide)
     (by decide) (by decide) (by decide) (by decide) (by decide) (by decide)
     (by decide) (by decide)⟩

/-! ### Hash-search engine lemmas -/

lemma render_newCommit_bufs (c : Commit) (j i : Nat) :
    renderCommit (newCommit c j i)
      = bufA c ++ decStr (c.author_timestamp + (j : Int)) ++ bufB c
        ++ decStr (c.author_timestamp + (i : Int)) ++ bufC c := by
  simp [renderCommit, newCommit, bufA, bufB, bufC, List.append_assoc]

lemma streams_eq (c : Commit) (j i : Nat)
    (ha : (decStr (c.author_timestamp + (j : Int))).length = 10)
    (hc : (decStr (c.author_timestamp + (i : Int))).length = 10) :
    probeStream c j i = fullStream c j i := by
  rw [probeStream, fullStream, prefixStream, render_newCommit_bufs]
  have hlen : (bufA c ++ decStr (c.author_timestamp + (j : Int)) ++ bufB c
      ++ decStr (c.author_timestamp + (i : Int)) ++ bufC c).length = assumedLen c := by
    simp only [List.length_append, ha, hc, assumedLen]
  rw [hlen]
  simp [List.append_assoc]

/-- C6: under the ten-digit precondition, the byte stream a probe builds by
resuming the precomputed prefix state equals the correctly framed byte stream
of the full re-rendered commit object, so `calculate_hash_predigest` produces
the hash of that single stream for every hash function `H`. -/
theorem c6_predigest_equiv (c : Commit) (j i : Nat) (H : List Char → List Nat)
    (ha : (decStr (c.author_timestamp + (j : Int))).length = 10)
    (hc : (decStr (c.author_timestamp + (i : Int))).length = 10) :
    calculate_hash_predigest H (prefixStream c) (c.author_timestamp + (j : Int))
        (bufB c) (c.author_timestamp + (i : Int)) (bufC c)
      = H (fullStream c j i)
    ∧ probeStream c j i = fullStream c j i := by
  have hs := streams_eq c j i ha hc
  exact ⟨congrArg H hs, hs⟩

/-- C4: whenever the engine can return the offset pair `(j, i)` and both new
timestamps render as ten decimal digits, the hash of the re-rendered commit
object (its correct framing header followed by the full object text)
satisfies `Search::test`. -/
theorem c4_returned_hash_matches (c : Commit) (sr : Search)
    (H : List Char → List Nat) (i j : Nat)
    (hE : EngineReturns c sr H i j)
    (ha : (decStr ((newCommit c j i).author_timestamp)).length = 10)
    (hc : (decStr ((newCommit c j i).committer_timestamp)).length = 10) :
    Search.test sr (H (fullStream c j i)) = .ok true := by
  have ha2 : (decStr (c.author_timestamp + (j : Int))).length = 10 := ha
  have hc2 : (decStr (c.author_timestamp + (i : Int))).length = 10 := hc
  have hs := streams_eq c j i ha2 hc2
  have hp := hE.2.1
  rw [← hs]
  exact hp

/-- C7: every probe of diagonal `i2` uses `author_timestamp + j2` with
`j2 ≤ i2`, and the returned commit's timestamps are `author_timestamp + j`
and `author_timestamp + i` with `j ≤ i`, so the new author timestamp never
exceeds the new committer timestamp. -/
theorem c7_author_le_committer (c : Commit) (sr : Search)
    (H : List Char → List Nat) (i j : Nat) (hE : EngineReturns c sr H i j) :
    j ≤ i
    ∧ (newCommit c j i).author_timestamp = c.author_timestamp + (j : Int)
    ∧ (newCommit c j i).committer_timestamp = c.author_timestamp + (i : Int)
    ∧ (newCommit c j i).author_timestamp ≤ (newCommit c j i).committer_timestamp
    ∧ ∀ i2 j2 : Nat, j2 < i2 + 1 →
        c.author_timestamp + (j2 : Int) ≤ c.author_timestamp + (i2 : Int) := by
  have hj : j < i + 1 := hE.1
  refine ⟨by omega, rfl, rfl, ?_, ?_⟩
  · show c.author_timestamp + (j : Int) ≤ c.author_timestamp + (i : Int)
    have hji : (j : Int) ≤ (i : Int) := by exact_mod_cast Nat.le_of_lt_succ hj
    omega
  · intro i2 j2 h2
    have hji : (j2 : Int) ≤ (i2 : Int) := by exact_mod_cast Nat.le_of_lt_succ h2
    omega

/-- C5 (amended): the diagonal (committer offset) of any two possible engine
results coincides and is minimal — no earlier diagonal has a matching probe;
within the winning diagonal the reported author offset is whichever matching
probe is observed first, with no minimality guarantee. -/
theorem c5_committer_minimal (c : Commit) (sr : Search) (H : List Char → List Nat)
    (i j i2 j2 : Nat) (h1 : EngineReturns c sr H i j)
    (h2 : EngineReturns c sr H i2 j2) :
    i = i2 ∧ ∀ i3, i3 < i → ¬ diagMatches c sr H i3 := by
  refine ⟨?_, h1.2.2⟩
  by_contra hne
  rcases Nat.lt_or_ge i i2 with hlt | hge
  · exact h2.2.2 i hlt ⟨j, h1.1, h1.2.1⟩
  · have hlt2 : i2 < i := by omega
    exact h1.2.2 i2 hlt2 ⟨j2, h2.1, h2.2.1⟩

/-- C5 (counterexample): on diagonal `1` of this commit/pattern/hash instance
both probes `j = 0` and `j = 1` match while diagonal `0` has no match, so the
engine may legitimately stop with `j = 1` even though `j = 0` also matches:
the reported author offset is not always the smallest matching one. -/
theorem c5_cex :
    EngineReturns cEng srOne skewH 1 0 ∧ EngineReturns cEng srOne skewH 1 1 := by
  constructor
  · exact ⟨by decide, by decide, by decide⟩
  · exact ⟨by decide, by decide, by decide⟩

/-- C10: two parsed commits differing only in their original committer
timestamp produce identical probe streams, identical engine behaviour and an
identical result commit — the search never reads `committer_timestamp`. -/
theorem c10_committer_independent (c1 c2 : Commit) (sr : Search)
    (H : List Char → List Nat) (i j : Nat)
    (hp : c1.preamble = c2.preamble) (hau : c1.author = c2.author)
    (hat : c1.author_timestamp = c2.author_timestamp)
    (haz : c1.author_timezone = c2.author_timezone)
    (hco : c1.committer = c2.committer)
    (hcz : c1.committer_timezone = c2.committer_timezone)
    (hm : c1.message = c2.message) :
    (∀ j2 i2 : Nat, probeStream c1 j2 i2 = probeStream c2 j2 i2)
    ∧ (EngineReturns c1 sr H i j ↔ EngineReturns c2 sr H i j)
    ∧ newCommit c1 j i = newCommit c2 j i := by
  have hbufA : bufA c1 = bufA c2 := by rw [bufA, bufA, hp, hau]
  have hbufB : bufB c1 = bufB c2 := by rw [bufB, bufB, haz, hco]
  have hbufC : bufC c1 = bufC c2 := by rw [bufC, bufC, hcz, hm]
  have hprb : ∀ j2 i2 : Nat, probeStream c1 j2 i2 = probeStream c2 j2 i2 := by
    intro j2 i2
    rw [probeStream, probeStream, prefixStream, prefixStream, assumedLen, assumedLen,
      hbufA, hbufB, hbufC, hat]
  have hpm : ∀ j2 i2 : Nat, probeMatches c1 sr H j2 i2 ↔ probeMatches c2 sr H j2 i2 := by
    intro j2 i2
    show Search.test sr (H (probeStream c1 j2 i2)) = .ok true
      ↔ Search.test sr (H (probeStream c2 j2 i2)) = .ok true
    rw [hprb j2 i2]
  refine ⟨hprb, ?_, ?_⟩
  · constructor
    · rintro ⟨e1, e2, e3⟩
      refine ⟨e1, (hpm j i).1 e2, fun ip hip hd => ?_⟩
      obtain ⟨jx, hjx, hx⟩ := hd
      exact e3 ip hip ⟨jx, hjx, (hpm jx ip).2 hx⟩
    · rintro ⟨e1, e2, e3⟩
      refine ⟨e1, (hpm j i).2 e2, fun ip hip hd => ?_⟩
      obtain ⟨jx, hjx, hx⟩ := hd
      exact e3 ip hip ⟨jx, hjx, (hpm jx ip).1 hx⟩
  · cases c1
    cases c2
    simp only at hp hau hat haz hco hcz hm
    simp [newCommit, hp, hau, hat, haz, hco, hcz, hm]

/-- Witness for `c4_returned_hash_matches` at a concrete engine instance. -/
theorem c4_returned_hash_matches_witness :
    EngineReturns cEng srOne constH 0 0
    ∧ (decStr ((newCommit cEng 0 0).author_timestamp)).length = 10
    ∧ (decStr ((newCommit cEng 0 0).committer_timestamp)).length = 10
    ∧ Search.test srOne (constH (fullStream cEng 0 0)) = .ok true :=
  ⟨by decide, by decide, by decide,
    c4_returned_hash_matches cEng srOne constH 0 0 (by decide) (by decide) (by decide)⟩

/-- Witness for `c5_committer_minimal` at a concrete engine instance. -/
theorem c5_committer_minimal_witness :
    EngineReturns cEng srOne skewH 1 0 ∧ EngineReturns cEng srOne skewH 1 1
    ∧ (1 = 1 ∧ ∀ i3, i3 < 1 → ¬ diagMatches cEng srOne skewH i3) :=
  ⟨by decide, by decide,
    c5_committer_minimal cEng srOne skewH 1 0 1 1 (by decide) (by decide)⟩

/-- Witness for `c6_predigest_equiv` at a concrete commit. -/
theorem c6_predigest_equiv_witness :
    (decStr (cEng.author_timestamp + ((0 : Nat) : Int))).length = 10
    ∧ (calculate_hash_predigest constH (prefixStream cEng)
          (cEng.author_timestamp + ((0 : Nat) : Int)) (bufB cEng)
          (cEng.author_timestamp + ((0 : Nat) : Int)) (bufC cEng)
        = constH (fullStream cEng 0 0)
      ∧ probeStream cEng 0 0 = fullStream cEng 0 0) :=
  ⟨by decide, c6_predigest_equiv cEng 0 0 constH (by decide) (by decide)⟩

/-- Witness for `c7_author_le_committer` at a concrete engine instance. -/
theorem c7_author_le_committer_witness :
    EngineReturns cEng srOne constH 0 0
    ∧ (newCommit cEng 0 0).author_timestamp ≤ (newCommit cEng 0 0).committer_timestamp :=
  ⟨by decide,
    (c7_author_le_committer cEng srOne constH 0 0 (by decide)).2.2.2.1⟩

/-- Witness for `c10_committer_independent` on two commits differing only in
the original committer timestamp. -/
theorem c10_committer_independent_witness :
    cEng.committer_timestamp ≠ cEngB.committer_timestamp
    ∧ (∀ j2 i2 : Nat, probeStream cEng j2 i2 = probeStream cEngB j2 i2)
    ∧ (EngineReturns cEng srOne constH 0 0 ↔ EngineReturns cEngB srOne constH 0 0)
    ∧ newCommit cEng 0 0 = newCommit cEngB 0 0 :=
  ⟨by decide,
    c10_committer_independent cEng cEngB srOne constH 0 0 (by decide) (by decide)
      (by decide) (by decide) (by decide) (by decide) (by decide)⟩

/-! ### Pair-loop lemmas for `Search::parse` -/

lemma parseHexLoop_stop (rem : List Char) (i bound : Nat) (acc : List Nat)
    (hib : ¬ i < bound) : parseHexLoop rem i bound acc = .done acc := by
  cases rem with
  | nil => simp only [parseHexLoop, if_neg hib]
  | cons c t =>
    cases t with
    | nil => simp only [parseHexLoop, if_neg hib]
    | cons d t2 => simp only [parseHexLoop, if_neg hib]

lemma parseHexLoop_done_length (rem : List Char) (i bound : Nat) (acc vec : List Nat)
    (hinv : i + rem.length = bound + 1)
    (h : parseHexLoop rem i bound acc = .done vec) :
    vec.length = acc.length + (bound - i + 1) / 2 := by
  revert hinv h
  induction rem, i, bound, acc using parseHexLoop.induct with
  | case1 i bound acc hib =>
    intro hinv h
    simp at hinv
    omega
  | case2 i bound acc hib c1 hc1 =>
    intro hinv h
    simp at hinv
    omega
  | case3 i bound acc hib c1 d hc1 =>
    intro hinv h
    simp at hinv
    omega
  | case4 i bound acc hib c1 c2 rest hc1 =>
    intro hinv h
    simp only [parseHexLoop, if_pos hib, hc1] at h
    exact HRes.noConfusion h
  | case5 i bound acc hib c1 c2 rest d hc1 hc2 =>
    intro hinv h
    simp only [parseHexLoop, if_pos hib, hc1, hc2] at h
    exact HRes.noConfusion h
  | case6 i bound acc hib c1 c2 rest d hc1 d2 hc2 ih =>
    intro hinv h
    simp only [parseHexLoop, if_pos hib, hc1, hc2] at h
    simp only [List.length_cons] at hinv
    have hlen := ih (by omega) h
    simp only [List.length_append, List.length_cons, List.length_nil] at hlen
    omega
  | case7 rem i bound acc hib =>
    intro hinv h
    rw [parseHexLoop_stop rem i bound acc hib] at h
    injection h with h2
    subst h2
    omega

lemma parseHexLoop_err (rem : List Char) (i bound : Nat) (acc : List Nat)
    (k : Nat) (c : Char)
    (hinv : i + rem.length = bound + 1)
    (hk : rem[k]? = some c) (hc : hexVal c = none)
    (hmin : ∀ j cj, j < k → rem[j]? = some cj → (hexVal cj).isSome)
    (hcase : i + k < bound ∨ k % 2 = 1) :
    parseHexLoop rem i bound acc = .err c (i + k) := by
  revert hinv hk hc hmin hcase
  revert k c
  induction rem, i, bound, acc using parseHexLoop.induct with
  | case1 i bound acc hib =>
    intro k c hinv hk hc hmin hcase
    simp at hinv
    omega
  | case2 i bound acc hib c1 hc1 =>
    intro k c hinv hk hc hmin hcase
    simp at hinv
    omega
  | case3 i bound acc hib c1 d hc1 =>
    intro k c hinv hk hc hmin hcase
    simp at hinv
    omega
  | case4 i bound acc hib c1 c2 rest hc1 =>
    intro k c hinv hk hc hmin hcase
    cases k with
    | zero =>
      simp only [List.getElem?_cons_zero, Option.some_inj] at hk
      subst hk
      simp only [parseHexLoop, if_pos hib, hc1, Nat.add_zero]
    | succ k2 =>
      have := hmin 0 c1 (by omega) (by simp)
      rw [hc1] at this
      exact absurd this (by simp)
  | case5 i bound acc hib c1 c2 rest d hc1 hc2 =>
    intro k c hinv hk hc hmin hcase
    cases k with
    | zero =>
      simp only [List.getElem?_cons_zero, Option.some_inj] at hk
      subst hk
      rw [hc1] at hc
      exact absurd hc (by simp)
    | succ k2 =>
      cases k2 with
      | zero =>
        simp only [List.getElem?_cons_succ, List.getElem?_cons_zero,
          Option.some_inj] at hk
        subst hk
        simp only [parseHexLoop, if_pos hib, hc1, hc2]
      | succ k3 =>
        have := hmin 1 c2 (by omega) (by simp)
        rw [hc2] at this
        exact absurd this (by simp)
  | case6 i bound acc hib c1 c2 rest d hc1 d2 hc2 ih =>
    intro k c hinv hk hc hmin hcase
    cases k with
    | zero =>
      simp only [List.getElem?_cons_zero, Option.some_inj] at hk
      subst hk
      rw [hc1] at hc
      exact absurd hc (by simp)
    | succ k2 =>
      cases k2 with
      | zero =>
        simp only [List.getElem?_cons_succ, List.getElem?_cons_zero,
          Option.some_inj] at hk
        subst hk
        rw [hc2] at hc
        exact absurd hc (by simp)
      | succ k3 =>
        simp only [List.getElem?_cons_succ] at hk
        simp only [List.length_cons] at hinv
        have hres := ih k3 c (by omega) hk hc
          (fun j cj hj hjk => hmin (j + 2) cj (by omega)
            (by simpa [List.getElem?_cons_succ] using hjk))
          (by omega)
        rw [parseHexLoop, if_pos hib, hc1, hc2]
        simp only [hres]
        congr 1
        omega
  | case7 rem i bound acc hib =>
    intro k c hinv hk hc hmin hcase
    have hklt : k < rem.length := by
      by_contra hx
      rw [List.getElem?_eq_none (by omega)] at hk
      exact absurd hk (by simp)
    omega

lemma parseHexLoop_done_even (rem : List Char) (i bound : Nat) (acc : List Nat)
    (hinv : i + rem.length = bound + 1)
    (hpar : (bound - i) % 2 = 0)
    (hval : ∀ j cj, j < bound - i → rem[j]? = some cj → (hexVal cj).isSome) :
    ∃ vec, parseHexLoop rem i bound acc = .done vec := by
  revert hinv hpar hval
  induction rem, i, bound, acc using parseHexLoop.induct with
  | case1 i bound acc hib =>
    intro hinv hpar hval
    simp at hinv
    omega
  | case2 i bound acc hib c1 hc1 =>
    intro hinv hpar hval
    simp at hinv
    omega
  | case3 i bound acc hib c1 d hc1 =>
    intro hinv hpar hval
    simp at hinv
    omega
  | case4 i bound acc hib c1 c2 rest hc1 =>
    intro hinv hpar hval
    have := hval 0 c1 (by omega) (by simp)
    rw [hc1] at this
    exact absurd this (by simp)
  | case5 i bound acc hib c1 c2 rest d hc1 hc2 =>
    intro hinv hpar hval
    have hge : 2 ≤ bound - i := by omega
    have := hval 1 c2 (by omega) (by simp)
    rw [hc2] at this
    exact absurd this (by simp)
  | case6 i bound acc hib c1 c2 rest d hc1 d2 hc2 ih =>
    intro hinv hpar hval
    simp only [List.length_cons] at hinv
    have hge : 2 ≤ bound - i := by omega
    obtain ⟨vec, hv⟩ := ih (by omega) (by omega)
      (fun j cj hj hjk => hval (j + 2) cj (by omega)
        (by simpa [List.getElem?_cons_succ] using hjk))
    exact ⟨vec, by rw [parseHexLoop, if_pos hib, hc1, hc2]; exact hv⟩
  | case7 rem i bound acc hib =>
    intro hinv hpar hval
    exact ⟨acc, parseHexLoop_stop rem i bound acc hib⟩

lemma parseHexLoop_done_all (rem : List Char) (i bound : Nat) (acc : List Nat)
    (hinv : i + rem.length = bound + 1)
    (hval : ∀ c ∈ rem, (hexVal c).isSome) :
    ∃ vec, parseHexLoop rem i bound acc = .done vec := by
  revert hinv hval
  induction rem, i, bound, acc using parseHexLoop.induct with
  | case1 i bound acc hib =>
    intro hinv hval
    simp at hinv
    omega
  | case2 i bound acc hib c1 hc1 =>
    intro hinv hval
    simp at hinv
    omega
  | case3 i bound acc hib c1 d hc1 =>
    intro hinv hval
    simp at hinv
    omega
  | case4 i bound acc hib c1 c2 rest hc1 =>
    intro hinv hval
    have := hval c1 (by simp)
    rw [hc1] at this
    exact absurd this (by simp)
  | case5 i bound acc hib c1 c2 rest d hc1 hc2 =>
    intro hinv hval
    have := hval c2 (by simp)
    rw [hc2] at this
    exact absurd this (by simp)
  | case6 i bound acc hib c1 c2 rest d hc1 d2 hc2 ih =>
    intro hinv hval
    simp only [List.length_cons] at hinv
    obtain ⟨vec, hv⟩ := ih (by omega) (fun x hx => hval x (by simp [hx]))
    exact ⟨vec, by rw [parseHexLoop, if_pos hib, hc1, hc2]; exact hv⟩
  | case7 rem i bound acc hib =>
    intro hinv hval
    exact ⟨acc, parseHexLoop_stop rem i bound acc hib⟩

lemma Search.parse_ok_shape {s : List Char} {sr : Search}
    (hlen : s.length ≤ 2 ^ 64 - 1) (h : Search.parse s = .ok sr) :
    sr.compare_len = s.length / 2 ∧ sr.bytes.length = s.length / 2
      ∧ (sr.odd = none ↔ s.length % 2 = 0) := by
  have hne : s ≠ [] := by
    rintro rfl
    rw [show Search.parse [] = .crash from by decide] at h
    exact SearchRes.noConfusion h
  have hpos : 0 < s.length := List.length_pos.2 hne
  have hus : usizeSub1 s.length = s.length - 1 := by
    rw [usizeSub1]
    omega
  rw [Search.parse, hus] at h
  cases hloop : parseHexLoop s 0 (s.length - 1) [] with
  | crash => rw [hloop] at h; exact absurd h (by simp)
  | err c p => rw [hloop] at h; exact absurd h (by simp)
  | done vec =>
    rw [hloop] at h
    have hdl := parseHexLoop_done_length s 0 (s.length - 1) [] vec (by omega) hloop
    simp only [List.length_nil] at hdl
    have hvl : vec.length = s.length / 2 := by omega
    rcases Nat.mod_two_eq_zero_or_one s.length with hpar | hpar
    · rw [hpar] at h
      injection h with h2
      subst h2
      exact ⟨hvl, hvl, by simp [hpar]⟩
    · rw [hpar] at h
      have hsome : ∃ bch, s[s.length - 1]? = some bch := by
        rw [List.getElem?_eq_getElem (l := s) (n := s.length - 1) (by omega)]
        exact ⟨_, rfl⟩
      obtain ⟨bch, hsome⟩ := hsome
      rw [hsome] at h
      have h3 : (match hexVal bch with
          | none => SearchRes.err bch (s.length - 1)
          | some v => SearchRes.ok ⟨vec.length, vec, some v⟩) = SearchRes.ok sr := h
      cases hhex : hexVal bch with
      | none => rw [hhex] at h3; exact absurd h3 (by simp)
      | some v =>
        rw [hhex] at h3
        injection h3 with h2
        subst h2
        refine ⟨hvl, hvl, by simp [hpar]⟩

/-- C2: for a pattern successfully parsed from a hex string of length `L`
with `⌊L/2⌋ + (L mod 2) ≤ 20` and a twenty-byte digest, `Search::test` is
true exactly when the first `⌊L/2⌋` digest bytes equal the compiled byte
sequence and, when a trailing nibble was stored, the high nibble of digest
byte `⌊L/2⌋` equals it. -/
theorem c2_test_iff (s : List Char) (sr : Search) (dig : List Nat)
    (hok : Search.parse s = .ok sr) (hd : dig.length = 20)
    (hb : s.length / 2 + s.length % 2 ≤ 20) :
    Search.test sr dig = .ok true ↔
      (dig.take (s.length / 2) = sr.bytes
        ∧ ∀ b, sr.odd = some b → ∃ v, dig[s.length / 2]? = some v ∧ v >>> 4 = b) := by
  have hlen : s.length ≤ 2 ^ 64 - 1 := by omega
  obtain ⟨hcl, hbl, hodd⟩ := Search.parse_ok_shape hlen hok
  rw [Search.test, hcl, if_pos (by omega)]
  by_cases htake : dig.take (s.length / 2) = sr.bytes
  · rw [if_pos htake]
    cases hob : sr.odd with
    | none =>
      simp only [hob]
      constructor
      · intro _
        exact ⟨htake, fun b hbb => absurd hbb (by simp)⟩
      · intro _
        trivial
    | some b0 =>
      have hm1 : s.length % 2 = 1 := by
        rcases Nat.mod_two_eq_zero_or_one s.length with hp | hp
        · rw [hodd.2 hp] at hob
          exact absurd hob (by simp)
        · exact hp
      have hlt : s.length / 2 < dig.length := by omega
      have hsome : ∃ v0, dig[s.length / 2]? = some v0 := by
        rw [List.getElem?_eq_getElem hlt]
        exact ⟨_, rfl⟩
      obtain ⟨v0, hsome⟩ := hsome
      simp only [hob, hsome]
      constructor
      · intro hh
        injection hh with hh2
        refine ⟨htake, fun b hbb => ?_⟩
        injection hbb with hbe
        subst hbe
        exact ⟨v0, rfl, of_decide_eq_true hh2⟩
      · rintro ⟨-, hv⟩
        obtain ⟨v, hv1, hv2⟩ := hv b0 rfl
        injection hv1 with he
        subst he
        simp [hv2]
  · rw [if_neg htake]
    constructor
    · intro hh
      exact absurd hh (by decide)
    · rintro ⟨h1, -⟩
      exact absurd h1 htake

/-- C3 (amended): every nonempty string (of representable length) made only
of hexadecimal digits parses successfully, and every nonempty string whose
leftmost non-hexadecimal character sits at index `k` fails with exactly that
character and index; the empty string is excluded — it panics instead. -/
theorem c3_parse_classified (s : List Char) (hne : s ≠ [])
    (hlen : s.length ≤ 2 ^ 64 - 1) :
    ((∀ c ∈ s, (hexVal c).isSome) → ∃ sr, Search.parse s = .ok sr)
    ∧ (∀ k c, s[k]? = some c → hexVal c = none →
        (∀ j cj, j < k → s[j]? = some cj → (hexVal cj).isSome) →
        Search.parse s = .err c k) := by
  have hpos : 0 < s.length := List.length_pos.2 hne
  have hus : usizeSub1 s.length = s.length - 1 := by
    rw [usizeSub1]
    omega
  constructor
  · intro hval
    obtain ⟨vec, hv⟩ := parseHexLoop_done_all s 0 (s.length - 1) [] (by omega) hval
    rcases Nat.mod_two_eq_zero_or_one s.length with hpar | hpar
    · exact ⟨⟨vec.length, vec, none⟩, by rw [Search.parse, hus, hv, hpar]⟩
    · have hsome : ∃ bch, s[s.length - 1]? = some bch := by
        rw [List.getElem?_eq_getElem (l := s) (n := s.length - 1) (by omega)]
        exact ⟨_, rfl⟩
      obtain ⟨bch, hsome⟩ := hsome
      have hbm : bch ∈ s := by
        have hg := List.getElem?_eq_getElem (l := s) (n := s.length - 1) (by omega)
        rw [hg] at hsome
        injection hsome with he
        rw [← he]
        exact List.getElem_mem _
      obtain ⟨v, hv2⟩ := Option.isSome_iff_exists.1 (hval bch hbm)
      refine ⟨⟨vec.length, vec, some v⟩, ?_⟩
      rw [Search.parse, hus, hv, hpar, hsome]
      show (match hexVal bch with
        | none => SearchRes.err bch (s.length - 1)
        | some v2 => SearchRes.ok ⟨vec.length, vec, some v2⟩)
        = SearchRes.ok ⟨vec.length, vec, some v⟩
      rw [hv2]
  · intro k c hk hc hmin
    have hklt : k < s.length := by
      by_contra hx
      rw [List.getElem?_eq_none (by omega)] at hk
      exact absurd hk (by simp)
    by_cases hcase : k < s.length - 1 ∨ k % 2 = 1
    · have herr := parseHexLoop_err s 0 (s.length - 1) [] k c (by omega) hk hc hmin
        (by omega)
      rw [Nat.zero_add] at herr
      rw [Search.parse, hus, herr]
    · push_neg at hcase
      have hkeq : k = s.length - 1 := by omega
      have hsodd : s.length % 2 = 1 := by omega
      obtain ⟨vec, hv⟩ := parseHexLoop_done_even s 0 (s.length - 1) [] (by omega)
        (by omega) (fun j cj hj hjk => hmin j cj (by omega) hjk)
      subst hkeq
      rw [Search.parse, hus, hv, hsodd, hk]
      show (match hexVal c with
        | none => SearchRes.err c (s.length - 1)
        | some v2 => SearchRes.ok ⟨vec.length, vec, some v2⟩)
        = SearchRes.err c (s.length - 1)
      rw [hc]

/-- C3 (counterexample): the empty string lies outside `[0-9a-fA-F]+`, yet
`Search::parse` reports no offending character and position for it — the
call panics instead of returning an error. -/
theorem c3_cex : Search.parse [] = .crash := by decide

/-- Witness for `c3_parse_classified` on the string `"z0"`. -/
theorem c3_parse_classified_witness :
    ("z0".toList ≠ []) ∧ ("z0".toList.length ≤ 2 ^ 64 - 1)
    ∧ Search.parse ("z0".toList) = .err 'z' 0 :=
  ⟨by decide, by decide,
    (c3_parse_classified ("z0".toList) (by decide) (by decide)).2 0 'z' (by decide)
      (by decide) (fun j cj hj hjc => absurd hj (Nat.not_lt_zero j))⟩

/-- Witness for `c2_test_iff` on the odd-length pattern `"01234"` and a
matching twenty-byte digest. -/
theorem c2_test_iff_witness :
    Search.parse ("01234".toList) = .ok ⟨2, [1, 35], some 4⟩
    ∧ (([1, 35, 69] ++ List.replicate 17 0 : List Nat)).length = 20
    ∧ "01234".toList.length / 2 + "01234".toList.length % 2 ≤ 20
    ∧ (Search.test ⟨2, [1, 35], some 4⟩ ([1, 35, 69] ++ List.replicate 17 0) = .ok true ↔
        (([1, 35, 69] ++ List.replicate 17 0 : List Nat).take ("01234".toList.length / 2)
            = Search.bytes ⟨2, [1, 35], some 4⟩
          ∧ ∀ b, Search.odd ⟨2, [1, 35], some 4⟩ = some b →
              ∃ v, ([1, 35, 69] ++ List.replicate 17 0 : List Nat)["01234".toList.length / 2]?
                  = some v ∧ v >>> 4 = b)) :=
  ⟨by decide, by decide, by decide,
    c2_test_iff ("01234".toList) ⟨2, [1, 35], some 4⟩ ([1, 35, 69] ++ List.replicate 17 0)
      (by decide) (by decide) (by decide)⟩

/-- C9: `Search::parse` applied to the empty string panics — the `usize`
expression `s.len() - 1` wraps around (and aborts outright in debug builds),
so the first byte access is out of bounds — instead of producing any
`Result`. -/
theorem c9_empty_crash : Search.parse [] = .crash := by decide

/-! ### `Commit::parse` error taxonomy -/

lemma rsplit3_ne_nil (s : List Char) (c : Char) : rsplit3 s c ≠ [] := by
  simp only [rsplit3]
  cases lastIdxOf s c with
  | none => simp
  | some p =>
    cases h2 : lastIdxOf (List.take p s) c with
    | none => simp [h2]
    | some q => simp [h2]

lemma parsePerson_err_iff (line : List Char) (n : Nat) :
    parsePerson line n = .err ↔ personErrCond line := by
  have h0 : ∃ p0, (rsplit3 line ' ')[0]? = some p0 := by
    rw [List.getElem?_eq_getElem (l := rsplit3 line ' ') (n := 0)
      (List.length_pos.2 (rsplit3_ne_nil line ' '))]
    exact ⟨_, rfl⟩
  obtain ⟨p0, hp0⟩ := h0
  simp only [parsePerson, personErrCond, hp0]
  cases h1 : (rsplit3 line ' ')[1]? with
  | none => simp [h1]
  | some ts =>
    cases h2 : parseI64 ts with
    | none => simp [h2]
    | some t =>
      cases h3 : (rsplit3 line ' ')[2]? with
      | none => simp [h2, h3]
      | some rest =>
        by_cases hn : n ≤ rest.length
        · simp [h2, h3, hn]
        · simp [h2, h3, hn]

/-- C8 (amended): `Commit::parse` returns `CommitError` exactly when the
input has no blank-line separator, the word `author` cannot be found in the
header, no newline follows it, or one of the two person lines is missing a
trailing token or carries a timestamp token that is not a valid base-10
`i64`; it is a pure function of its input, but on inputs passing these checks
it does not always return — when the remaining name token is shorter than the
stripped field-name literal it panics through an out-of-range slice. -/
theorem c8_err_taxonomy (s : List Char) :
    Commit.parse s = .err ↔
      (findSub s ['\n', '\n'] = none
      ∨ ∃ k, findSub s ['\n', '\n'] = some k
          ∧ (findSub (s.take k) authorWord = none
            ∨ ∃ ai, findSub (s.take k) authorWord = some ai
                ∧ (findSub ((s.take k).drop ai) ['\n'] = none
                  ∨ ∃ li, findSub ((s.take k).drop ai) ['\n'] = some li
                      ∧ (personErrCond (((s.take k).drop ai).take li)
                        ∨ (parsePerson (((s.take k).drop ai).take li) 7 ≠ .err
                          ∧ parsePerson (((s.take k).drop ai).take li) 7 ≠ .crash
                          ∧ personErrCond (((s.take k).drop ai).drop li)))))) := by
  cases hnn : findSub s ['\n', '\n'] with
  | none =>
    have hps : Commit.parse s = .err := by
      simp only [Commit.parse, hnn]
    rw [hps]
    exact ⟨fun _ => Or.inl rfl, fun _ => rfl⟩
  | some k =>
    cases ha : findSub (s.take k) authorWord with
    | none =>
      have hps : Commit.parse s = .err := by
        simp only [Commit.parse, hnn, ha]
      rw [hps]
      exact ⟨fun _ => Or.inr ⟨k, rfl, Or.inl ha⟩, fun _ => rfl⟩
    | some ai =>
      cases hl : findSub ((s.take k).drop ai) ['\n'] with
      | none =>
        have hps : Commit.parse s = .err := by
          simp only [Commit.parse, hnn, ha, hl]
        rw [hps]
        exact ⟨fun _ => Or.inr ⟨k, rfl, Or.inr ⟨ai, ha, Or.inl hl⟩⟩, fun _ => rfl⟩
      | some li =>
        cases hp1 : parsePerson (((s.take k).drop ai).take li) 7 with
        | err =>
          have hcond : personErrCond (((s.take k).drop ai).take li) :=
            (parsePerson_err_iff _ 7).1 hp1
          have hps : Commit.parse s = .err := by
            simp only [Commit.parse, hnn, ha, hl, hp1]
          rw [hps]
          exact ⟨fun _ => Or.inr ⟨k, rfl, Or.inr ⟨ai, ha, Or.inr ⟨li, hl, Or.inl hcond⟩⟩⟩,
            fun _ => rfl⟩
        | crash =>
          have hnc : ¬ personErrCond (((s.take k).drop ai).take li) := by
            rw [← parsePerson_err_iff _ 7, hp1]
            simp
          have hps : Commit.parse s = .crash := by
            simp only [Commit.parse, hnn, ha, hl, hp1]
          rw [hps]
          constructor
          · intro hx
            exact absurd hx (by decide)
          · rintro (h0 | ⟨k2, hk2, hA⟩)
            · exact Option.noConfusion h0
            · injection hk2 with hke
              subst hke
              rcases hA with h1 | ⟨ai2, hai2, hB⟩
              · rw [ha] at h1
                exact Option.noConfusion h1
              · rw [ha] at hai2
                injection hai2 with haie
                subst haie
                rcases hB with h2 | ⟨li2, hli2, hC⟩
                · rw [hl] at h2
                  exact Option.noConfusion h2
                · rw [hl] at hli2
                  injection hli2 with hlie
                  subst hlie
                  rcases hC with hcnd | ⟨hne1, hne2, hcnd2⟩
                  · exact absurd hcnd hnc
                  · exact absurd hp1 hne2
        | ok a t z =>
          have hnc : ¬ personErrCond (((s.take k).drop ai).take li) := by
            rw [← parsePerson_err_iff _ 7, hp1]
            simp
          have hne1 : parsePerson (((s.take k).drop ai).take li) 7 ≠ .err := by
            rw [hp1]
            simp
          have hne2 : parsePerson (((s.take k).drop ai).take li) 7 ≠ .crash := by
            rw [hp1]
            simp
          cases hp2 : parsePerson (((s.take k).drop ai).drop li) 11 with
          | err =>
            have hcond2 : personErrCond (((s.take k).drop ai).drop li) :=
              (parsePerson_err_iff _ 11).1 hp2
            have hps : Commit.parse s = .err := by
              simp only [Commit.parse, hnn, ha, hl, hp1, hp2]
            rw [hps]
            exact ⟨fun _ => Or.inr ⟨k, rfl, Or.inr ⟨ai, ha, Or.inr ⟨li, hl,
              Or.inr ⟨hne1, hne2, hcond2⟩⟩⟩⟩, fun _ => rfl⟩
          | crash =>
            have hnc2 : ¬ personErrCond (((s.take k).drop ai).drop li) := by
              rw [← parsePerson_err_iff _ 11, hp2]
              simp
            have hps : Commit.parse s = .crash := by
              simp only [Commit.parse, hnn, ha, hl, hp1, hp2]
            rw [hps]
            constructor
            · intro hx
              exact absurd hx (by decide)
            · rintro (h0 | ⟨k2, hk2, hA⟩)
              · exact Option.noConfusion h0
              · injection hk2 with hke
                subst hke
                rcases hA with h1 | ⟨ai2, hai2, hB⟩
                · rw [ha] at h1
                  exact Option.noConfusion h1
                · rw [ha] at hai2
                  injection hai2 with haie
                  subst haie
                  rcases hB with h2 | ⟨li2, hli2, hC⟩
                  · rw [hl] at h2
                    exact Option.noConfusion h2
                  · rw [hl] at hli2
                    injection hli2 with hlie
                    subst hlie
                    rcases hC with hcnd | ⟨hx1, hx2, hcnd2⟩
                    · exact absurd hcnd hnc
                    · exact absurd hcnd2 hnc2
          | ok a2 t2 z2 =>
            have hnc2 : ¬ personErrCond (((s.take k).drop ai).drop li) := by
              rw [← parsePerson_err_iff _ 11, hp2]
              simp
            have hps : Commit.parse s
                = .ok ⟨(s.take k).take ai, a, t, z, a2, t2, z2, s.drop (k + 2)⟩ := by
              simp only [Commit.parse, hnn, ha, hl, hp1, hp2]
            rw [hps]
            constructor
            · intro hx
              exact absurd hx (by simp)
            · rintro (h0 | ⟨k2, hk2, hA⟩)
              · exact Option.noConfusion h0
              · injection hk2 with hke
                subst hke
                rcases hA with h1 | ⟨ai2, hai2, hB⟩
                · rw [ha] at h1
                  exact Option.noConfusion h1
                · rw [ha] at hai2
                  injection hai2 with haie
                  subst haie
                  rcases hB with h2 | ⟨li2, hli2, hC⟩
                  · rw [hl] at h2
                    exact Option.noConfusion h2
                  · rw [hl] at hli2
                    injection hli2 with hlie
                    subst hlie
                    rcases hC with hcnd | ⟨hx1, hx2, hcnd2⟩
                    · exact absurd hcnd hnc
                    · exact absurd hcnd2 hnc2

/-- C8 (counterexample): a commit text on which `Commit::parse` neither
succeeds nor returns `CommitError`: the author line `"author 1 -0500"` leaves
the token `"author"` (six bytes) before the two peeled tokens, and the
unchecked slice `[7..]` panics. -/
theorem c8_cex :
    Commit.parse ("author 1 -0500\ncommitter C <c> 2 +0000\n\nx".toList) = .crash := by
  decide
